import Mathlib

/-!
Shallow embedding of the `thaiger` scraper/poster pair (`main.py`, `poster.py`).

Strings are modelled as `List Char`; machine-level concerns (HTTP, file
handles) are abstracted away, but every branch of the embedded functions
mirrors the corresponding Python line for line.  Article ids are decimal
strings sorted with `key=int`; we model them as naturals via the canonical
decimal representation, so `sorted(key=int)` becomes sorting naturals.
-/

set_option maxRecDepth 8000

namespace Thaiger

/-! ### Ledger (`poster.py`)

`MAX_POSTED_RECORDS = 100` (poster.py line 21).  `load_posted_ids`
(lines 264-287) parses the JSON array, coerces items with `str`, drops
`None` items, and trims to the last `MAX_POSTED_RECORDS` entries.
`save_posted_ids` (lines 290-304) sorts the id set numerically ascending
and dumps it; the `mkdir` on line 294 happens before the `try` block.
-/

def MAX_POSTED_RECORDS : Nat := 100

/-- The load-time trim (poster.py lines 282-284): keep the last
`MAX_POSTED_RECORDS` entries of the list when it is longer than that. -/
def trimRecords {α : Type} (l : List α) : List α :=
  if MAX_POSTED_RECORDS < l.length then l.drop (l.length - MAX_POSTED_RECORDS) else l

/-- `load_posted_ids` applied to a successfully parsed JSON array.  An item
is `none` for JSON `null` (skipped by `if item is not None`) and `some s`
where `s` is the `str(item)` coercion of the item. -/
def load_posted_items (data : List (Option String)) : Finset String :=
  (trimRecords (data.filterMap id)).toFinset

/-- Numeric-level `save_posted_ids` (poster.py line 298): the persisted JSON
array, i.e. the id set sorted ascending by integer value.  No truncation is
performed at save time. -/
def save_posted_ids (s : Finset Nat) : List Nat :=
  s.sort (· ≤ ·)

/-- Numeric-level `load_posted_ids` on the array persisted by
`save_posted_ids` (all items are non-null numeric strings, so the `str`
coercion and the `None` filter are the identity). -/
def load_posted_ids (l : List Nat) : Finset Nat :=
  (trimRecords l).toFinset

/-- `save_posted_ids` with its effects made explicit.  `mkdirFails` models
an exception raised by `state_file.parent.mkdir(...)` (poster.py line 294,
before the `try`); `innerFails` models any exception inside the `try`
(sorting with `key=int`, serialization, writing), which is caught and
logged (lines 303-304).  `.error ()` is an exception escaping to the
caller; `.ok none` means the error was swallowed and nothing was written;
`.ok (some l)` means the list `l` was persisted. -/
def save_posted_ids_run (mkdirFails innerFails : Bool) (s : Finset Nat) :
    Except Unit (Option (List Nat)) :=
  if mkdirFails then .error ()
  else if innerFails then .ok none
  else .ok (some (save_posted_ids s))

/-! ### Fingerprint gate (`main.py`, `parse_and_save` lines 271-280)

The stored meta entry; only the fields the gate touches are modelled. -/

structure MetaEntry where
  hash : String
  translated_to : String
deriving DecidableEq

/-- The gate: `stored` is `some m` when `meta.json` exists and parses
(lines 274-276; a parse failure falls through the bare `except: pass`),
and the article is skipped iff `m.get("hash") == curr_hash` (line 277).
The stored `translated_to` field is not consulted. -/
def skip_reprocess (stored : Option MetaEntry) (curr_hash : String) : Bool :=
  match stored with
  | none => false
  | some m => m.hash == curr_hash

/-- The gate as the spec words it (claim C1): entry exists, fingerprints
match, and the stored `translated_to` equals the new target language. -/
def skip_reprocess_spec (stored : Option MetaEntry) (curr_hash lang : String) : Prop :=
  ∃ m, stored = some m ∧ m.hash = curr_hash ∧ m.translated_to = lang

/-! ### Processing order (C8)

`main.py` lines 464-482: candidate posts are filtered against the posted
set, truncated to the limit, and processed in the order the API returned
them (the `new_posts.reverse()` on line 471 is commented out; there is no
sort).  `poster.py` line 350 sorts the candidate articles with
`key=lambda x: int(x["id"])` before posting. -/

def main_stage_order (posts : List Nat) (posted : Finset Nat) (limit : Nat) : List Nat :=
  (posts.filter (fun p => decide (p ∉ posted))).take limit

def poster_stage_order (ids : List Nat) : List Nat :=
  ids.mergeSort (fun a b => a ≤ b)

/-! ### Translation recombination (`main.py` lines 401-410, C7) -/

/-- Python whitespace, as stripped by `str.strip()` on ASCII text. -/
def pySpace (c : Char) : Bool :=
  c == ' ' || c == '\t' || c == '\n' || c == '\r' || c == '\x0B' || c == '\x0C'

def lstrip (l : List Char) : List Char := l.dropWhile pySpace

def rstrip (l : List Char) : List Char := (l.reverse.dropWhile pySpace).reverse

def pyStrip (l : List Char) : List Char := rstrip (lstrip l)

/-- Leftmost split: `splitFirst sep s = some (pre, post)` iff `sep` occurs
in `s`, where `pre`/`post` surround the first occurrence.  This is
Python's `s.split(sep, 1)` and also decides `sep in s`. -/
def splitFirst (sep : List Char) : List Char → Option (List Char × List Char)
  | [] => if sep.isPrefixOf ([] : List Char) then some ([], []) else none
  | c :: rest =>
    if sep.isPrefixOf (c :: rest) then some ([], (c :: rest).drop sep.length)
    else
      match splitFirst sep rest with
      | some (pre, post) => some (c :: pre, post)
      | none => none

/-- Python `s.split(sep, 1)`: two pieces when `sep` occurs, else `[s]`. -/
def pySplit1 (sep : List Char) (s : List Char) : List (List Char) :=
  match splitFirst sep s with
  | some (pre, post) => [pre, post]
  | none => [s]

def DELIM : List Char := ['|', '|', '|']

/-- The recombination step (main.py lines 401-410).  `Option` models a
possible `IndexError`: the unguarded `parts[1]` in the delimiter branch is
an `Option` lookup, and the fallback branch mirrors the
`if len(parts) > 1` guard. -/
def recombine (s : List Char) : Option (List Char × List Char) :=
  if (splitFirst DELIM s).isSome then
    let parts := pySplit1 DELIM s
    match parts.get? 0, parts.get? 1 with
    | some t, some b => some (pyStrip t, pyStrip b)
    | _, _ => none
  else
    match pySplit1 ['\n'] s with
    | [] => none
    | [t] => some (pyStrip t, [])
    | t :: b :: _ => some (pyStrip t, pyStrip b)

/-! ### Paragraph chunker (`poster.py`, `chunk_text` lines 42-79)

`chunk_text` normalizes `\r\n` to `\n`, splits the text on the blank-line
separator `\n\n`, drops all-whitespace paragraphs, and then greedily packs
paragraphs into chunks of at most `size` characters; a paragraph longer
than `size` is split word-by-word (on single spaces) by `split_long`,
which never splits inside a word. -/

/-- Python `text.replace('\r\n', '\n')` (poster.py line 46). -/
def replCRLF : List Char → List Char
  | '\r' :: '\n' :: rest => '\n' :: replCRLF rest
  | c :: rest => c :: replCRLF rest
  | [] => []

/-- Python `norm.split('\n\n')`: split on the two-character separator,
leftmost and non-overlapping, keeping empty pieces. -/
def pySplitPara : List Char → List (List Char)
  | '\n' :: '\n' :: rest => [] :: pySplitPara rest
  | c :: rest => (c :: (pySplitPara rest).headI) :: (pySplitPara rest).tail
  | [] => [[]]

/-- Truthiness of `p.strip()` (poster.py line 47): the paragraph has at
least one non-whitespace character. -/
def hasVisible (l : List Char) : Bool := l.any (fun c => !(pySpace c))

/-- The loop body of `split_long` (poster.py lines 50-60): `parts` and
`sub` are the accumulator state, the last argument the remaining words of
`p.split(" ")`. -/
def split_long_go (size : Nat) (parts : List (List Char)) (sub : List Char) :
    List (List Char) → List (List Char)
  | [] => if sub = [] then parts else parts ++ [sub]
  | w :: ws =>
    if size < sub.length + w.length + 1 then
      split_long_go size (parts ++ [sub]) w ws
    else
      split_long_go size parts (lstrip (sub ++ ' ' :: w)) ws

/-- `split_long` (poster.py lines 50-60). -/
def split_long (size : Nat) (p : List Char) : List (List Char) :=
  split_long_go size [] [] (p.splitOn ' ')

/-- The main loop of `chunk_text` (poster.py lines 62-78): `chunks` and
`curr` are the accumulator state, the last argument the remaining
paragraphs. -/
def chunk_go (size : Nat) (chunks : List (List Char)) (curr : List Char) :
    List (List Char) → List (List Char)
  | [] => if curr = [] then chunks else chunks ++ [curr]
  | p :: ps =>
    if size < p.length then
      chunk_go size ((if curr = [] then chunks else chunks ++ [curr]) ++ split_long size p)
        [] ps
    else if curr = [] then chunk_go size chunks p ps
    else if curr.length + 2 + p.length ≤ size then
      chunk_go size chunks (curr ++ '\n' :: '\n' :: p) ps
    else chunk_go size (chunks ++ [curr]) p ps

/-- `chunk_text` (poster.py lines 42-79). -/
def chunk_text (t : List Char) (size : Nat) : List (List Char) :=
  chunk_go size [] [] ((pySplitPara (replCRLF t)).filter hasVisible)

/-- The non-whitespace content of a string, in order: the comparison up to
whitespace normalization used by C5. -/
def visChars (l : List Char) : List Char := l.filter (fun c => !(pySpace c))

/-! ### Helper lemmas -/

/-- The load-time trim is an unconditional `drop`: when the list is short,
`length - MAX_POSTED_RECORDS = 0`. -/
theorem trimRecords_eq_drop {α : Type} (l : List α) :
    trimRecords l = l.drop (l.length - MAX_POSTED_RECORDS) := by
  unfold trimRecords
  split
  · rfl
  · have h0 : l.length - MAX_POSTED_RECORDS = 0 := by omega
    rw [h0, List.drop_zero]

theorem length_trimRecords_le {α : Type} (l : List α) :
    (trimRecords l).length ≤ MAX_POSTED_RECORDS := by
  rw [trimRecords_eq_drop, List.length_drop]
  omega

/-- Concrete array used to separate drop-then-filter from filter-then-drop
in `load_posted_ids`: one hundred distinct non-null items followed by a
trailing null. -/
def nullTailData : List (Option String) :=
  (List.range MAX_POSTED_RECORDS).map (fun i => some (toString i)) ++ [none]

/-! ### C1: the fingerprint gate -/

/-- C1 counterexample: a stored entry whose fingerprint matches but whose
`translated_to` field ("en") differs from the new target language ("ru")
is still skipped by the code, so the gate is not the conjunction the spec
states. -/
theorem skip_reprocess_counterexample :
    skip_reprocess (some ⟨"h", "en"⟩) "h" = true ∧
      ¬ skip_reprocess_spec (some ⟨"h", "en"⟩) "h" "ru" := by
  constructor
  · rfl
  · rintro ⟨m, hm, _, hlang⟩
    cases hm
    exact absurd hlang (by decide)

/-- C1 amended: the gate skips iff the meta entry exists (and parses) and
its stored hash equals the current content hash; the stored
`translated_to` field plays no role. -/
theorem skip_reprocess_iff (stored : Option MetaEntry) (h : String) :
    skip_reprocess stored h = true ↔ ∃ m, stored = some m ∧ m.hash = h := by
  cases stored with
  | none => simp [skip_reprocess]
  | some m => simp [skip_reprocess]

/-! ### C2: what `save_posted_ids` persists -/

unseal List.merge List.mergeSort in
/-- C2 counterexample: saving the ids 1..5 persists all five of them in
ascending order; the persisted array is not truncated to the last three
(nor to any bound) at save time. -/
theorem save_posted_ids_counterexample :
    save_posted_ids {1, 2, 3, 4, 5} = [1, 2, 3, 4, 5] ∧
      save_posted_ids {1, 2, 3, 4, 5} ≠ [3, 4, 5] := by decide

/-- C2 amended: the ledger save persists the full id set, sorted
numerically ascending, with no truncation: the persisted array has
exactly one entry per saved id.  (Trimming to the retention bound happens
at load time instead; see C10.) -/
theorem save_posted_ids_spec (s : Finset Nat) :
    (save_posted_ids s).Sorted (· ≤ ·) ∧
      (save_posted_ids s).toFinset = s ∧
      (save_posted_ids s).length = s.card := by
  refine ⟨Finset.sort_sorted _ s, ?_, Finset.length_sort _⟩
  ext a
  simp [save_posted_ids, Finset.mem_sort]

/-! ### C3: ledger round trip -/

/-- C3: `load ∘ save` keeps exactly the `MAX_POSTED_RECORDS` numerically
largest ids: the loaded set is a subset of the saved one, has
`min (card) MAX_POSTED_RECORDS` elements, and is upward closed inside the
saved set (anything larger than a kept id is also kept).  In particular
the loaded set never exceeds the bound. -/
theorem ledger_roundtrip (s : Finset Nat) :
    load_posted_ids (save_posted_ids s) ⊆ s ∧
      (load_posted_ids (save_posted_ids s)).card = min s.card MAX_POSTED_RECORDS ∧
      ∀ x ∈ load_posted_ids (save_posted_ids s), ∀ y ∈ s, x < y →
        y ∈ load_posted_ids (save_posted_ids s) := by
  have hload : load_posted_ids (save_posted_ids s) =
      ((s.sort (· ≤ ·)).drop ((s.sort (· ≤ ·)).length - MAX_POSTED_RECORDS)).toFinset := by
    rw [load_posted_ids, trimRecords_eq_drop]; rfl
  set l := s.sort (· ≤ ·) with hl
  set k := l.length - MAX_POSTED_RECORDS with hk
  have hnd : l.Nodup := s.sort_nodup (· ≤ ·)
  refine ⟨?_, ?_, ?_⟩
  · intro x hx
    rw [hload] at hx
    rw [List.mem_toFinset] at hx
    have := List.mem_of_mem_drop hx
    rwa [hl, Finset.mem_sort] at this
  · rw [hload]
    rw [List.toFinset_card_of_nodup ((List.drop_sublist k l).nodup hnd)]
    rw [List.length_drop]
    have hlen : l.length = s.card := Finset.length_sort _
    omega
  · intro x hx y hy hlt
    rw [hload, List.mem_toFinset] at hx ⊢
    have hsorted : List.Pairwise (· < ·) l := s.sort_sorted_lt
    have hsplit : List.take k l ++ List.drop k l = l := List.take_append_drop k l
    have hpw : List.Pairwise (· < ·) (List.take k l ++ List.drop k l) := by
      rwa [hsplit]
    rw [List.pairwise_append] at hpw
    have hyl : y ∈ l := by rw [hl, Finset.mem_sort]; exact hy
    rcases List.mem_append.mp (by rw [hsplit]; exact hyl) with htake | hdrop
    · exact absurd hlt (Nat.lt_asymm (hpw.2.2 y htake x hx))
    · exact hdrop

/-! ### C7: translation recombination never raises -/

/-- C7: the recombination step is total (the `Option` is always `some`,
i.e. no `IndexError` can surface): when the sentinel `|||` occurs, the
text is split at its first occurrence into stripped (title, body); when it
does not, the first line (up to the first newline) becomes the title and
the remainder the body, with an empty body when there is no newline. -/
theorem recombine_spec (s : List Char) :
    recombine s = some (
      match splitFirst DELIM s with
      | some (pre, post) => (pyStrip pre, pyStrip post)
      | none =>
        match splitFirst ['\n'] s with
        | some (t, b) => (pyStrip t, pyStrip b)
        | none => (pyStrip s, [])) := by
  unfold recombine pySplit1
  cases h : splitFirst DELIM s with
  | some pp => cases pp with | mk pre post => simp [h]
  | none =>
    simp only [h, Option.isSome_none, Bool.false_eq_true, if_false]
    cases h2 : splitFirst ['\n'] s with
    | some pp => cases pp with | mk t b => simp [h2]
    | none => simp [h2]

/-! ### C8: processing order -/

/-- C8 counterexample: with candidate posts `[5, 3]` (the order the API
returned them) and nothing posted yet, the fetch/parse stage of `main.py`
processes id 5 before id 3 — the sequence is not ascending. -/
theorem main_stage_order_counterexample :
    ¬ List.Sorted (· < ·) (main_stage_order [5, 3] ∅ 10) := by decide

/-- C8 amended: only the posting stage (`poster.py`) sorts by numeric id —
its processing order is strictly ascending whenever the candidate ids are
distinct — while the fetch/parse stage (`main.py`) preserves the fetch
order of the API response (its processed sequence is a sublist of it). -/
theorem stage_order_amended (arts posts : List Nat) (posted : Finset Nat) (lim : Nat)
    (hnd : arts.Nodup) :
    List.Sorted (· < ·) (poster_stage_order arts) ∧
      (main_stage_order posts posted lim).Sublist posts := by
  constructor
  · have hle : List.Sorted (· ≤ ·) (poster_stage_order arts) :=
      List.sorted_mergeSort' arts
    have hnd2 : (poster_stage_order arts).Nodup :=
      ((List.mergeSort_perm arts _).symm).nodup hnd
    exact List.Pairwise.imp₂ (fun a b hab hne => lt_of_le_of_ne hab hne) hle hnd2
  · exact (List.take_sublist _ _).trans (List.filter_sublist _)

/-- Witness for the amended C8 at a concrete run. -/
theorem stage_order_amended_witness :
    List.Sorted (· < ·) (poster_stage_order [2, 1]) ∧
      (main_stage_order [5, 3] ∅ 10).Sublist [5, 3] :=
  stage_order_amended [2, 1] [5, 3] ∅ 10 (by decide)

/-! ### C9: save failure semantics -/

/-- C9 counterexample: when `state_file.parent.mkdir(...)` raises (it runs
before the `try` block), `save_posted_ids` propagates the exception to its
caller instead of logging it. -/
theorem save_posted_ids_run_counterexample :
    (save_posted_ids_run true false ∅).isOk = false := rfl

/-- C9 amended: every error raised inside the `try` block (sorting,
serialization, writing) is caught and logged, so the save raises only when
creating the parent directory fails. -/
theorem save_posted_ids_run_no_raise (mf inf : Bool) (s : Finset Nat)
    (h : mf = false) : (save_posted_ids_run mf inf s).isOk = true := by
  subst h
  cases inf <;> rfl

/-- Witness for the amended C9: an error during the dump itself is
swallowed. -/
theorem save_posted_ids_run_no_raise_witness :
    (save_posted_ids_run false true ∅).isOk = true :=
  save_posted_ids_run_no_raise false true ∅ rfl

/-! ### C10: load-time trimming -/

/-- C10 counterexample: on an array of 101 items whose last element is
null, the code first drops the null and then finds only 100 remaining
items, so nothing is trimmed and the first item survives; taking the last
100 elements of the raw array (as the claim words it) would discard the
first item.  The two readings produce different sets. -/
theorem load_posted_items_counterexample :
    MAX_POSTED_RECORDS < nullTailData.length ∧
      load_posted_items nullTailData ≠
        ((nullTailData.drop (nullTailData.length - MAX_POSTED_RECORDS)).filterMap
          id).toFinset := by decide

/-- C10 amended: `load_posted_ids` drops null items first and then keeps
the last `MAX_POSTED_RECORDS` entries of what remains, so the loaded set
never exceeds the bound. -/
theorem load_posted_items_spec (data : List (Option String)) :
    (load_posted_items data).card ≤ MAX_POSTED_RECORDS ∧
      load_posted_items data =
        ((data.filterMap id).drop
          ((data.filterMap id).length - MAX_POSTED_RECORDS)).toFinset := by
  constructor
  · exact (List.toFinset_card_le _).trans (length_trimRecords_le _)
  · rw [load_posted_items, trimRecords_eq_drop]

/-! ### Chunker lemmas -/

theorem visChars_append (a b : List Char) :
    visChars (a ++ b) = visChars a ++ visChars b := by
  simp [visChars]

theorem visChars_cons_sp {c : Char} (h : pySpace c = true) (l : List Char) :
    visChars (c :: l) = visChars l := by
  simp [visChars, List.filter_cons, h]

theorem visChars_cons_vis {c : Char} (h : pySpace c = false) (l : List Char) :
    visChars (c :: l) = c :: visChars l := by
  simp [visChars, List.filter_cons, h]

theorem visChars_lstrip (l : List Char) : visChars (lstrip l) = visChars l := by
  induction l with
  | nil => rfl
  | cons c rest ih =>
    by_cases hc : pySpace c = true
    · rw [lstrip, List.dropWhile_cons, if_pos hc, visChars_cons_sp hc]
      exact ih
    · rw [lstrip, List.dropWhile_cons, if_neg hc]

theorem length_lstrip_le (l : List Char) : (lstrip l).length ≤ l.length :=
  (List.dropWhile_sublist pySpace).length_le

theorem visChars_replCRLF (l : List Char) : visChars (replCRLF l) = visChars l := by
  induction l using replCRLF.induct with
  | case1 rest ih =>
    rw [replCRLF, visChars_cons_sp (by decide), visChars_cons_sp (by decide),
      visChars_cons_sp (by decide)]
    exact ih
  | case2 c rest h ih =>
    rw [replCRLF.eq_def]
    split
    · next heq =>
      injection heq with h1 h2
      exact (h _ h1 h2).elim
    · next c' rest' h' heq =>
      cases heq
      by_cases hc : pySpace c = true
      · rw [visChars_cons_sp hc, visChars_cons_sp hc]; exact ih
      · rw [visChars_cons_vis (by simpa using hc), visChars_cons_vis (by simpa using hc), ih]
    · next heq => cases heq
  | case3 => rfl

theorem pySplitPara_ne_nil (l : List Char) : pySplitPara l ≠ [] := by
  induction l using pySplitPara.induct with
  | case1 rest ih => simp [pySplitPara]
  | case2 c rest h ih =>
    rw [pySplitPara.eq_def]
    split
    · simp
    · simp
    · simp
  | case3 => simp [pySplitPara]

theorem visChars_splitPara (l : List Char) :
    ((pySplitPara l).map visChars).flatten = visChars l := by
  induction l using pySplitPara.induct with
  | case1 rest ih =>
    rw [pySplitPara, visChars_cons_sp (by decide), visChars_cons_sp (by decide)]
    simpa using ih
  | case2 c rest h ih =>
    rw [pySplitPara.eq_def]
    split
    · next heq =>
      injection heq with h1 h2
      exact (h _ h1 h2).elim
    · next c' rest' h' heq =>
      cases heq
      rcases hr : pySplitPara rest with _ | ⟨a, t⟩
      · exact absurd hr (pySplitPara_ne_nil rest)
      · rw [hr] at ih
        simp only [List.headI, List.tail, List.map_cons, List.flatten_cons] at ih ⊢
        by_cases hc : pySpace c = true
        · rw [visChars_cons_sp hc, visChars_cons_sp hc, ih]
        · rw [visChars_cons_vis (by simpa using hc), visChars_cons_vis (by simpa using hc)]
          simp only [List.cons_append, ih]
    · next heq => cases heq
  | case3 => simp [pySplitPara, visChars]

theorem visChars_intercalate (sep : List Char) (hsep : visChars sep = [])
    (ls : List (List Char)) :
    visChars (List.intercalate sep ls) = (ls.map visChars).flatten := by
  induction ls with
  | nil => simp [List.intercalate, visChars]
  | cons a t ih =>
    cases t with
    | nil => simp [List.intercalate, visChars]
    | cons b t' =>
      have h2 : List.intercalate sep (a :: b :: t') = a ++ sep ++ List.intercalate sep (b :: t') := by
        simp [List.intercalate, List.intersperse_cons_cons]
      rw [h2, visChars_append, visChars_append, hsep, List.append_nil, ih]
      simp

theorem splitOnP_pieces_not_sat (p : Char → Bool) (l : List Char) :
    ∀ w ∈ l.splitOnP p, ∀ c ∈ w, p c = false := by
  induction l with
  | nil =>
    intro w hw
    rw [List.splitOnP_nil, List.mem_singleton] at hw
    subst hw
    intro c hc
    cases hc
  | cons x xs ih =>
    intro w hw
    rw [List.splitOnP_cons] at hw
    by_cases hx : p x = true
    · rw [if_pos hx] at hw
      rcases List.mem_cons.mp hw with h | h
      · subst h; intro c hc; cases hc
      · exact ih w h
    · rw [if_neg hx] at hw
      rcases hsp : xs.splitOnP p with _ | ⟨hd, tl⟩
      · exact absurd hsp (List.splitOnP_ne_nil p xs)
      · rw [hsp, List.modifyHead_cons] at hw
        rcases List.mem_cons.mp hw with h | h
        · subst h
          intro c hc
          rcases List.mem_cons.mp hc with h2 | h2
          · subst h2; exact Bool.eq_false_iff.mpr hx
          · exact ih hd (hsp ▸ List.mem_cons_self hd tl) c h2
        · exact ih w (hsp ▸ List.mem_cons.mpr (Or.inr h))

theorem no_space_of_mem_splitOn {l w : List Char} (hw : w ∈ l.splitOn ' ') : ' ' ∉ w := by
  intro hmem
  have := splitOnP_pieces_not_sat (· == ' ') l w hw ' ' hmem
  simp at this

theorem visChars_flatten_splitOn (l : List Char) :
    ((l.splitOn ' ').map visChars).flatten = visChars l := by
  conv_rhs => rw [← List.intercalate_splitOn l ' ']
  rw [visChars_intercalate]
  rfl

theorem split_long_go_bound (size : Nat) (ws : List (List Char))
    (parts : List (List Char)) (sub : List Char)
    (hp : ∀ c ∈ parts, c.length ≤ size ∨ ' ' ∉ c)
    (hs : sub.length ≤ size ∨ ' ' ∉ sub)
    (hw : ∀ w ∈ ws, ' ' ∉ w) :
    ∀ c ∈ split_long_go size parts sub ws, c.length ≤ size ∨ ' ' ∉ c := by
  induction ws generalizing parts sub with
  | nil =>
    intro c hc
    rw [split_long_go] at hc
    split at hc
    · exact hp c hc
    · rcases List.mem_append.mp hc with h | h
      · exact hp c h
      · rw [List.mem_singleton] at h; subst h; exact hs
  | cons w ws ih =>
    intro c hc
    rw [split_long_go] at hc
    split at hc
    · refine ih (parts ++ [sub]) w ?_ ?_ (fun v hv => hw v (List.mem_cons_of_mem w hv)) c hc
      · intro d hd
        rcases List.mem_append.mp hd with h | h
        · exact hp d h
        · rw [List.mem_singleton] at h; subst h; exact hs
      · exact Or.inr (hw w (List.mem_cons_self w ws))
    · refine ih parts (lstrip (sub ++ ' ' :: w)) hp (Or.inl ?_)
        (fun v hv => hw v (List.mem_cons_of_mem w hv)) c hc
      have h1 : (sub ++ ' ' :: w).length = sub.length + w.length + 1 := by
        simp [List.length_append]
        omega
      have h2 := length_lstrip_le (sub ++ ' ' :: w)
      omega

theorem split_long_bound (size : Nat) (p : List Char) :
    ∀ c ∈ split_long size p, c.length ≤ size ∨ ' ' ∉ c := by
  refine split_long_go_bound size (p.splitOn ' ') [] [] ?_ ?_ ?_
  · intro c hc; cases hc
  · exact Or.inl (Nat.zero_le size)
  · intro w hw; exact no_space_of_mem_splitOn hw

theorem split_long_go_content (size : Nat) (ws : List (List Char))
    (parts : List (List Char)) (sub : List Char) :
    ((split_long_go size parts sub ws).map visChars).flatten
      = (parts.map visChars).flatten ++ visChars sub ++ (ws.map visChars).flatten := by
  induction ws generalizing parts sub with
  | nil =>
    rw [split_long_go]
    split
    · next h => subst h; simp [visChars]
    · simp [visChars_append]
  | cons w ws ih =>
    rw [split_long_go]
    split
    · rw [ih]
      simp [visChars_append]
    · rw [ih, visChars_lstrip, visChars_append, visChars_cons_sp (by decide)]
      simp

theorem split_long_content (size : Nat) (p : List Char) :
    ((split_long size p).map visChars).flatten = visChars p := by
  rw [split_long, split_long_go_content]
  simp [visChars_flatten_splitOn, visChars]

theorem chunk_go_bound (size : Nat) (ps : List (List Char))
    (chunks : List (List Char)) (curr : List Char)
    (hch : ∀ c ∈ chunks, c.length ≤ size ∨ ' ' ∉ c)
    (hcu : curr.length ≤ size) :
    ∀ c ∈ chunk_go size chunks curr ps, c.length ≤ size ∨ ' ' ∉ c := by
  induction ps generalizing chunks curr with
  | nil =>
    intro c hc
    rw [chunk_go] at hc
    split at hc
    · exact hch c hc
    · rcases List.mem_append.mp hc with h | h
      · exact hch c h
      · rw [List.mem_singleton] at h; subst h; exact Or.inl hcu
  | cons p ps ih =>
    intro c hc
    rw [chunk_go] at hc
    split at hc
    · refine ih _ [] ?_ (Nat.zero_le size) c hc
      intro d hd
      rcases List.mem_append.mp hd with h | h
      · split at h
        · exact hch d h
        · rcases List.mem_append.mp h with h2 | h2
          · exact hch d h2
          · rw [List.mem_singleton] at h2; subst h2; exact Or.inl hcu
      · exact split_long_bound size p d h
    · split at hc
      · exact ih chunks p hch (by omega) c hc
      · split at hc
        · refine ih chunks _ hch ?_ c hc
          have hla : (curr ++ '\n' :: '\n' :: p).length = curr.length + 2 + p.length := by
            simp [List.length_append]
            omega
          rw [hla]
          omega
        · refine ih _ p ?_ (by omega) c hc
          intro d hd
          rcases List.mem_append.mp hd with h | h
          · exact hch d h
          · rw [List.mem_singleton] at h; subst h; exact Or.inl hcu

theorem chunk_go_content (size : Nat) (ps : List (List Char))
    (chunks : List (List Char)) (curr : List Char) :
    ((chunk_go size chunks curr ps).map visChars).flatten
      = (chunks.map visChars).flatten ++ visChars curr ++ (ps.map visChars).flatten := by
  induction ps generalizing chunks curr with
  | nil =>
    rw [chunk_go]
    split
    · next h => subst h; simp [visChars]
    · simp [visChars_append]
  | cons p ps ih =>
    rw [chunk_go]
    split
    · rw [ih]
      split
      · next h => subst h; simp [visChars, split_long_content]
      · simp [visChars, visChars_append, split_long_content]
    · split
      · rename_i hcurr
        subst hcurr
        rw [ih]
        simp [visChars]
      · split
        · rw [ih, visChars_append, visChars_cons_sp (by decide), visChars_cons_sp (by decide)]
          simp
        · rw [ih]
          simp [visChars_append]

theorem hasVisible_false_visChars {p : List Char} (h : hasVisible p = false) :
    visChars p = [] := by
  rw [visChars, List.filter_eq_nil_iff]
  rw [hasVisible, List.any_eq_false] at h
  intro c hc
  simp only [Bool.not_eq_true'] at h ⊢
  exact h c hc

theorem filter_hasVisible_content (l : List (List Char)) :
    (((l.filter hasVisible).map visChars)).flatten = (l.map visChars).flatten := by
  induction l with
  | nil => rfl
  | cons p ps ih =>
    rw [List.filter_cons]
    by_cases hp : hasVisible p = true
    · rw [if_pos hp]
      simp [ih]
    · rw [if_neg hp]
      simp only [Bool.not_eq_true] at hp
      simp [ih, hasVisible_false_visChars hp]

/-! ### C4: chunk length bound -/

/-- C4: for budget `m ≥ 1`, every chunk produced by `chunk_text` either
has length at most `m` or contains no space, i.e. is a single
(space-delimited) word — the word longer than the budget that the code
emits whole. -/
theorem chunk_text_length_bound (t : List Char) (m : Nat) (c : List Char)
    (_h1 : 1 ≤ m) (hc : c ∈ chunk_text t m) : c.length ≤ m ∨ ' ' ∉ c := by
  refine chunk_go_bound m _ [] [] ?_ (Nat.zero_le m) c hc
  intro d hd
  cases hd

/-- Witness for C4 on a concrete run: with budget 1, the text "ab" is a
single over-long word, emitted whole as a chunk. -/
theorem chunk_text_length_bound_witness :
    1 ≤ 1 ∧ ['a', 'b'] ∈ chunk_text ['a', 'b'] 1 ∧
      ((['a', 'b'] : List Char).length ≤ 1 ∨ ' ' ∉ (['a', 'b'] : List Char)) :=
  ⟨by decide, by decide, chunk_text_length_bound ['a', 'b'] 1 ['a', 'b'] (by decide) (by decide)⟩

/-! ### C5: reconstruction up to whitespace -/

/-- C5: joining the chunks with the paragraph separator reproduces the
input text up to whitespace normalization — the sequences of
non-whitespace characters coincide, so no content is lost, duplicated or
reordered — and the empty input yields the empty chunk list. -/
theorem chunk_text_reconstruction (t : List Char) (m : Nat) (_h1 : 1 ≤ m) :
    visChars (List.intercalate ['\n', '\n'] (chunk_text t m)) = visChars t ∧
      chunk_text [] m = [] := by
  constructor
  · rw [visChars_intercalate ['\n', '\n'] (by decide)]
    rw [chunk_text, chunk_go_content]
    simp only [List.map_nil, List.flatten_nil, List.nil_append, visChars, List.filter_nil]
    rw [← visChars, filter_hasVisible_content, visChars_splitPara, visChars_replCRLF]
  · rfl

/-- Witness for C5 at a concrete input. -/
theorem chunk_text_reconstruction_witness :
    1 ≤ 1 ∧ (visChars (List.intercalate ['\n', '\n'] (chunk_text ['a', ' ', 'b'] 1))
        = visChars ['a', ' ', 'b'] ∧
      chunk_text [] 1 = []) :=
  ⟨by decide, chunk_text_reconstruction ['a', ' ', 'b'] 1 (by decide)⟩

/-! ### C6: the single long paragraph scenario -/

theorem replCRLF_of_no_cr (l : List Char) (h : ∀ c ∈ l, c ≠ '\r') :
    replCRLF l = l := by
  induction l using replCRLF.induct with
  | case1 rest ih =>
    exact absurd rfl (h '\r' (List.mem_cons_self _ _))
  | case2 c rest hcond ih =>
    rw [replCRLF.eq_def]
    split
    · next heq =>
      injection heq with h1 h2
      exact (hcond _ h1 h2).elim
    · next heq =>
      cases heq
      rw [ih (fun d hd => h d (List.mem_cons_of_mem c hd))]
    · next heq => cases heq
  | case3 => rfl

theorem pySplitPara_no_nl (l : List Char) (h : ∀ c ∈ l, c ≠ '\n') :
    pySplitPara l = [l] := by
  induction l using pySplitPara.induct with
  | case1 rest ih =>
    exact absurd rfl (h '\n' (List.mem_cons_self _ _))
  | case2 c rest hcond ih =>
    rw [pySplitPara.eq_def]
    split
    · next heq =>
      injection heq with h1 h2
      exact (hcond _ h1 h2).elim
    · next heq =>
      cases heq
      rw [ih (fun d hd => h d (List.mem_cons_of_mem c hd))]
      simp
    · next heq => cases heq
  | case3 => rfl

theorem splitOn_space_of_no_space (p : List Char) (hsp : ' ' ∉ p) :
    p.splitOn ' ' = [p] := by
  rw [List.splitOn]
  refine List.splitOnP_eq_single _ _ ?_
  intro x hx hb
  rw [beq_iff_eq] at hb
  exact hsp (hb ▸ hx)

/-- A paragraph that is a single word longer than the budget: `split_long`
emits an empty first part (the initial empty `sub` is flushed) followed by
the word, whole. -/
theorem split_long_single_long_word (size : Nat) (p : List Char)
    (hlen : size < p.length) (hsp : ' ' ∉ p) :
    split_long size p = [[], p] := by
  have hne : p ≠ [] := by
    intro he
    rw [he] at hlen
    simp at hlen
  rw [split_long, splitOn_space_of_no_space p hsp]
  rw [split_long_go, if_pos (by simp; omega)]
  rw [split_long_go, if_neg hne]
  rfl

theorem chunk_text_single_long_word (p : List Char) (size : Nat)
    (hlen : size < p.length) (hsp : ' ' ∉ p)
    (hnl : ∀ c ∈ p, c ≠ '\n') (hcr : ∀ c ∈ p, c ≠ '\r')
    (hvis : hasVisible p = true) :
    chunk_text p size = [[], p] := by
  rw [chunk_text, replCRLF_of_no_cr p hcr, pySplitPara_no_nl p hnl]
  have hfil : List.filter hasVisible [p] = [p] := by
    simp [List.filter, hvis]
  rw [hfil, chunk_go, if_pos hlen]
  rw [split_long_single_long_word size p hlen hsp]
  rfl

/-- C6 counterexample: on a single 5000-character one-word paragraph with
budget 1000, `chunk_text` returns 2 chunks (an empty artifact and the
whole word), not 5: the code never splits inside a word. -/
theorem chunk_text_long_paragraph_counterexample :
    (chunk_text (List.replicate 5000 'x') 1000).length = 2 ∧
      (chunk_text (List.replicate 5000 'x') 1000).length ≠ 5 := by
  have h := chunk_text_single_long_word (List.replicate 5000 'x') 1000
    (by rw [List.length_replicate]; omega)
    (fun hm => by have := List.eq_of_mem_replicate hm; cases this)
    (fun c hc => by rw [List.eq_of_mem_replicate hc]; decide)
    (fun c hc => by rw [List.eq_of_mem_replicate hc]; decide)
    (by
      rw [hasVisible, List.any_eq_true]
      exact ⟨'x', List.mem_replicate.mpr ⟨by omega, rfl⟩, by decide⟩)
  rw [h]
  exact ⟨rfl, by intro hcontra; cases hcontra⟩

/-- C6 amended: the chunker returns exactly two chunks on that input — an
empty chunk and the whole 5000-character word (whose length exceeds the
budget, the documented single-long-word exception) — and the concatenation
of the chunks equals the original string. -/
theorem chunk_text_long_paragraph_amended :
    chunk_text (List.replicate 5000 'x') 1000 = [[], List.replicate 5000 'x'] ∧
      (chunk_text (List.replicate 5000 'x') 1000).flatten = List.replicate 5000 'x' := by
  have h := chunk_text_single_long_word (List.replicate 5000 'x') 1000
    (by rw [List.length_replicate]; omega)
    (fun hm => by have := List.eq_of_mem_replicate hm; cases this)
    (fun c hc => by rw [List.eq_of_mem_replicate hc]; decide)
    (fun c hc => by rw [List.eq_of_mem_replicate hc]; decide)
    (by
      rw [hasVisible, List.any_eq_true]
      exact ⟨'x', List.mem_replicate.mpr ⟨by omega, rfl⟩, by decide⟩)
  refine ⟨h, ?_⟩
  rw [h, List.flatten_cons, List.flatten_cons, List.flatten_nil,
    List.nil_append, List.append_nil]

end Thaiger
